import Mathlib

/-!
Verification of the composition / plugging core of the wac "plug" command
(src/commands/plug.rs: PlugCommand::exec and plug_into_socket).

The command wires the exports of a list of "plug" components into the
unsatisfied imports of a "socket" component.  plug.rs is the authority for
the resolver; the graph operations (wac_graph::CompositionGraph) and the
subtype checker (wac_types::SubtypeChecker) are external collaborators
that are modelled from the specification (sections 4.2, 4.3 and 6 of the
design document).

Machine types: a component model type descriptor is opaque to the
resolver, so it is embedded as a natural number index and the structural
subtype oracle is a parameter of type Ty -> Ty -> Bool.
-/

/-- Opaque type descriptor: the resolver only ever hands these to the
subtype oracle, never inspects them. -/
abbrev Ty := Nat

/-- Error taxonomy of one composition run (section 7 of the design
document and the bail!/Err sites of plug.rs). -/
inductive Err where
  | invalidPlugName
  | unknownImport
  | unknownExport
  | alreadySet
  | duplicateExport
  | noMatchingImports
  | binaryToTerminal
  | encodeError
  | textConversionError
deriving DecidableEq, Repr

deriving instance DecidableEq for Except

/-- Association list lookup with decidable equality on keys, first match
wins; stands for the IndexMap / HashMap lookups of the source. -/
def lookupA {α β : Type} [DecidableEq α] : List (α × β) → α → Option β
  | [], _ => none
  | (k, v) :: rest, n => if k = n then some v else lookupA rest n

/-- Modelled from the spec: a decoded package, the black-box result of the
external decode collaborator, owning a mapping of import names to types
and a mapping of export names to types, both in insertion order. -/
structure PkgData where
  imports : List (String × Ty)
  exports : List (String × Ty)
deriving DecidableEq, Repr

/-- Modelled from the spec: an instance node of the composition graph,
wrapping the id of its package and its instantiation arguments, each
argument naming a source value (source instance id, export name). -/
structure InstanceNode where
  pkg : Nat
  args : List (String × (Nat × String))
deriving DecidableEq, Repr

/-- Modelled from the spec: the composition graph, an arena of registered
packages (name and data), instance nodes, and top-level exports.  Ids are
list indices; the graph is append-only. -/
structure Graph where
  packages : List (String × PkgData)
  instances : List InstanceNode
  exports : List (String × (Nat × String))
deriving DecidableEq, Repr

/-- Modelled from the spec: register_package appends a package to the
arena and returns its fresh id; decoding already happened externally, so
registration itself does not fail. -/
def register_package (g : Graph) (name : String) (p : PkgData) : Graph × Nat :=
  ({ g with packages := g.packages ++ [(name, p)] }, g.packages.length)

/-- Modelled from the spec: instantiate creates a new instance node with
an empty argument map and returns its fresh node id; no constraint is
checked at creation time. -/
def instantiate (g : Graph) (pid : Nat) : Graph × Nat :=
  ({ g with instances := g.instances ++ [⟨pid, []⟩] }, g.instances.length)

/-- The package data a node id resolves to, if any. -/
def pkgOfInstance (g : Graph) (i : Nat) : Option PkgData :=
  (g.instances.get? i).bind (fun inst => (g.packages.get? inst.pkg).map Prod.snd)

/-- The package data a package id resolves to, with a default for ids the
program never produces (the source would panic on those). -/
def pkgOfId (g : Graph) (k : Nat) : PkgData :=
  ((g.packages.get? k).map Prod.snd).getD ⟨[], []⟩

/-- Modelled from the spec: alias_instance_export yields a value ref for
the named export of an instance, failing with UnknownExport when the name
is not an export of the package of the instance. -/
def alias_instance_export (g : Graph) (i : Nat) (name : String) :
    Except Err (Nat × String) :=
  match pkgOfInstance g i with
  | none => .error .unknownExport
  | some p =>
    match lookupA p.exports name with
    | some _ => .ok (i, name)
    | none => .error .unknownExport

/-- Modelled from the spec: set_instantiation_argument supplies an
argument to an instance, failing with UnknownImport when the name is not
an import of the package of the instance and with AlreadySet when an
argument under that name was already supplied. -/
def set_instantiation_argument (g : Graph) (i : Nat) (name : String)
    (ref : Nat × String) : Except Err Graph :=
  match g.instances.get? i, pkgOfInstance g i with
  | some inst, some p =>
    match lookupA p.imports name with
    | none => .error .unknownImport
    | some _ =>
      match lookupA inst.args name with
      | some _ => .error .alreadySet
      | none => .ok { g with
          instances := g.instances.set i { inst with args := inst.args ++ [(name, ref)] } }
  | _, _ => .error .unknownImport

/-- Modelled from the spec: export registers a top-level export of the
composed artifact, failing with DuplicateExport on a repeated name. -/
def exportValue (g : Graph) (ref : Nat × String) (name : String) : Except Err Graph :=
  match lookupA g.exports name with
  | some _ => .error .duplicateExport
  | none => .ok { g with exports := g.exports ++ [(name, ref)] }

/-- The instantiation arguments of a node, as read by
get_instantiation_arguments in the completeness check. -/
def argsOf (g : Graph) (i : Nat) : List (String × (Nat × String)) :=
  ((g.instances.get? i).map (fun inst => inst.args)).getD []

/-- Lookup of one instantiation argument of a node. -/
def argLookup (g : Graph) (i : Nat) (name : String) : Option (Nat × String) :=
  lookupA (argsOf g i) name

/-- Modelled from the spec: the memoization cache of the subtype checker,
mapping a queried pair of type descriptors to the cached verdict. -/
abbrev Cache := List ((Ty × Ty) × Bool)

/-- The matching loop of plug_into_socket (plug.rs lines 228-240): walk
the exports of the plug in order; for an export whose name is also a
socket import name, consult the cached subtype checker; collect
the names for which the check succeeds.  The state carries the matched
names so far, the cache, and the number of oracle invocations (cache
misses) so far. -/
def computeMatchesAux (sub : Ty → Ty → Bool) (sp : PkgData) :
    List (String × Ty) → List String → Cache → Nat → List String × Cache × Nat
  | [], acc, cache, calls => (acc, cache, calls)
  | (n, pty) :: rest, acc, cache, calls =>
    match lookupA sp.imports n with
    | none => computeMatchesAux sub sp rest acc cache calls
    | some sty =>
      match lookupA cache (pty, sty) with
      | some v =>
        computeMatchesAux sub sp rest (if v then acc ++ [n] else acc) cache calls
      | none =>
        computeMatchesAux sub sp rest (if sub pty sty then acc ++ [n] else acc)
          (cache ++ [((pty, sty), sub pty sty)]) (calls + 1)

/-- The full matching pass of one plug_into_socket call: the source
creates a fresh empty cache (plug.rs line 229), then runs the loop. -/
def computeMatches (sub : Ty → Ty → Bool) (plug sp : PkgData) :
    List String × Cache × Nat :=
  computeMatchesAux sub sp plug.exports [] [] 0

/-- Cache-free description of the matched-name set, used in the theorems:
the export names of the plug that also name an import of the socket and
pass the subtype check, in export order. -/
def matchedNamesAux (sub : Ty → Ty → Bool) (sp : PkgData) :
    List (String × Ty) → List String
  | [] => []
  | (n, pty) :: rest =>
    match lookupA sp.imports n with
    | none => matchedNamesAux sub sp rest
    | some sty =>
      if sub pty sty then n :: matchedNamesAux sub sp rest
      else matchedNamesAux sub sp rest

/-- The matched-name set of a plug against a socket. -/
def matchedNames (sub : Ty → Ty → Bool) (plug sp : PkgData) : List String :=
  matchedNamesAux sub sp plug.exports

/-- The candidate type pairs a plug submits to the oracle, in query
order: one pair per export whose name is an import name of the socket. -/
def candPairsAux (sp : PkgData) : List (String × Ty) → List (Ty × Ty)
  | [] => []
  | (n, pty) :: rest =>
    match lookupA sp.imports n with
    | none => candPairsAux sp rest
    | some sty => (pty, sty) :: candPairsAux sp rest

/-- Candidate pairs of a whole plug. -/
def candPairs (plug sp : PkgData) : List (Ty × Ty) :=
  candPairsAux sp plug.exports

/-- Number of pairs in the second list that are new with respect to the
first list and to the pairs before them: how often a memoizing cache
seeded with the first list misses. -/
def newDistinct : List (Ty × Ty) → List (Ty × Ty) → Nat
  | _, [] => 0
  | seen, p :: rest =>
    if p ∈ seen then newDistinct seen rest
    else newDistinct (seen ++ [p]) rest + 1

/-- The wiring loop of plug_into_socket (plug.rs lines 243-249): for each
matched name, lazily create the single plug instance (get_or_insert),
alias its export under the name, and set it as the argument of the socket
instance under the same name.  Any failure aborts. -/
def wireLoop (sInst pid : Nat) :
    List String → Graph → Option Nat → Except Err (Graph × Option Nat)
  | [], g, inst => .ok (g, inst)
  | n :: rest, g, inst =>
    let instd : Graph × Nat :=
      match inst with
      | some j => (g, j)
      | none => instantiate g pid
    match alias_instance_export instd.1 instd.2 n with
    | .error e => .error e
    | .ok ref =>
      match set_instantiation_argument instd.1 sInst n ref with
      | .error e => .error e
      | .ok g2 => wireLoop sInst pid rest g2 (some instd.2)

/-- plug_into_socket (plug.rs lines 218-251): register the plug package
under its final name, compute the matched-name set with a freshly created
subtype-checker cache, then wire every matched name through the lazily
created single plug instance.  Besides the updated graph it returns the
final cache of this call and the number of oracle invocations, which the
source keeps inside the call. -/
def plug_into_socket (sub : Ty → Ty → Bool) (name : String) (plugPkg : PkgData)
    (socket sInst : Nat) (g : Graph) : Except Err (Graph × (Cache × Nat)) :=
  let rp := register_package g name plugPkg
  let sp := pkgOfId rp.1 socket
  let m := computeMatches sub plugPkg sp
  match wireLoop sInst rp.2 m.1 rp.1 none with
  | .error e => .error e
  | .ok gi => .ok (gi.1, (m.2.1, m.2.2))

/-- A plug or socket reference of the command line (plug.rs enum
PackageRef).  A local path is embedded by its file stem (none when the
path has no stem) together with the package its bytes decode to; a
registry reference by its package name together with the downloaded
package.  File reads, registry downloads and decoding are external
collaborators and are taken as already resolved. -/
inductive PackageRef where
  | localPath (stem : Option String) (pkg : PkgData)
  | registryPackage (rname : String) (pkg : PkgData)
deriving DecidableEq, Repr

/-- The package a reference resolves to. -/
def PackageRef.pkgOf : PackageRef → PkgData
  | .localPath _ p => p
  | .registryPackage _ p => p

/-- The base name of a plug reference (plug.rs lines 125-132): the
registry package name, or the file stem of a local path; none when a
local path has no file stem, which the source turns into an error. -/
def baseName : PackageRef → Option String
  | .localPath stem _ => stem
  | .registryPackage n _ => some n

/-- Append a reference to its base-name group, creating the group at the
end when absent; groups keep members in input order. -/
def addToGroups (groups : List (String × List PackageRef)) (k : String)
    (r : PackageRef) : List (String × List PackageRef) :=
  match groups with
  | [] => [(k, [r])]
  | (k2, rs) :: rest =>
    if k2 = k then (k2, rs ++ [r]) :: rest else (k2, rs) :: addToGroups rest k r

/-- The grouping loop of exec (plug.rs lines 123-136): derive each base
name in input order, failing on the first reference without one, and
group the references by base name. -/
def groupPlugsAux (acc : List (String × List PackageRef)) :
    List PackageRef → Except Err (List (String × List PackageRef))
  | [] => .ok acc
  | r :: rest =>
    match baseName r with
    | none => .error .invalidPlugName
    | some k => groupPlugsAux (addToGroups acc k r) rest

/-- Grouping of the whole plug list. -/
def groupPlugs (plugs : List PackageRef) :
    Except Err (List (String × List PackageRef)) :=
  groupPlugsAux [] plugs

/-- The final registered name of a plug (plug.rs lines 141-159): a local
path is named "plug:" followed by the group key (its stem); a registry
reference keeps its own name; when the group has more than one member the
zero-based index of the member inside the group is appended. -/
def finalPlugName (key : String) (r : PackageRef) (len i : Nat) : String :=
  (match r with
   | .localPath _ _ => "plug:" ++ key
   | .registryPackage n _ => n) ++ (if len > 1 then toString i else "")

/-- The per-group loop of exec (plug.rs lines 140-161): enumerate the
members of one group, compute each final name and call plug_into_socket,
collecting the per-call cache and oracle-call statistics. -/
def processRefs (sub : Ty → Ty → Bool) (key : String) (len socket sInst : Nat) :
    Nat → List PackageRef → Graph → List (Cache × Nat) →
    Except Err (Graph × List (Cache × Nat))
  | _, [], g, logs => .ok (g, logs)
  | i, r :: rest, g, logs =>
    match plug_into_socket sub (finalPlugName key r len i) r.pkgOf socket sInst g with
    | .error e => .error e
    | .ok gl => processRefs sub key len socket sInst (i + 1) rest gl.1 (logs ++ [gl.2])

/-- The group iteration of exec (plug.rs line 139).  The source iterates
a std HashMap whose iteration order is unspecified and varies from run to
run; the order is therefore an explicit parameter, a list of group keys.
Keys not present in the grouping are skipped. -/
def processOrder (sub : Ty → Ty → Bool)
    (groups : List (String × List PackageRef)) (socket sInst : Nat) :
    List String → Graph → List (Cache × Nat) →
    Except Err (Graph × List (Cache × Nat))
  | [], g, logs => .ok (g, logs)
  | key :: rest, g, logs =>
    match lookupA groups key with
    | none => processOrder sub groups socket sInst rest g logs
    | some refs =>
      match processRefs sub key refs.length socket sInst 0 refs g logs with
      | .error e => .error e
      | .ok gl => processOrder sub groups socket sInst rest gl.1 gl.2

/-- The resolution phase of exec (plug.rs lines 118-162): register the
socket package under the fixed name "socket", create the one socket
instance, group the plugs, and process every group in the given hash
iteration order.  Socket package id and socket instance id are both 0. -/
def runPlugs (sub : Ty → Ty → Bool) (socketPkg : PkgData)
    (plugs : List PackageRef) (hashOrder : List String) :
    Except Err (Graph × List (Cache × Nat)) :=
  let r0 := register_package ⟨[], [], []⟩ "socket" socketPkg
  let r1 := instantiate r0.1 r0.2
  match groupPlugs plugs with
  | .error e => .error e
  | .ok groups => processOrder sub groups r0.2 r1.2 hashOrder r1.1 []

/-- An observable output action of the command: bytes written to the
output file or to standard output. -/
inductive Effect where
  | writeFile (bytes : List Nat)
  | writeStdout (bytes : List Nat)
deriving DecidableEq, Repr

/-- The export finalization loop of exec (plug.rs lines 173-182): for
every export name of the socket package, alias that export on the socket
instance and register it as a top-level export under the same name. -/
def exportLoop (sInst : Nat) : List String → Graph → Except Err Graph
  | [], g => .ok g
  | n :: rest, g =>
    match alias_instance_export g sInst n with
    | .error e => .error e
    | .ok ref =>
      match exportValue g ref n with
      | .error e => .error e
      | .ok g2 => exportLoop sInst rest g2

/-- The tail of exec after the plug loop (plug.rs lines 164-213): the
completeness check, the export finalization, the guard against writing
binary output to a terminal, encoding, the optional text conversion, and
the single write of the produced bytes.  The external encode and text
collaborators are parameters returning none on failure.  The result pairs
the outcome with the list of output effects that happened. -/
def finishAfterPlugs (encodeG : Graph → Option (List Nat))
    (toText : List Nat → Option (List Nat)) (isTerm wat hasOut : Bool)
    (socketExports : List String) (sInst : Nat) (g : Graph) :
    Except Err Graph × List Effect :=
  match argsOf g sInst with
  | [] => (.error .noMatchingImports, [])
  | _ :: _ =>
    match exportLoop sInst socketExports g with
    | .error e => (.error e, [])
    | .ok g2 =>
      match !wat && !hasOut && isTerm with
      | true => (.error .binaryToTerminal, [])
      | false =>
        match encodeG g2 with
        | none => (.error .encodeError, [])
        | some bytes =>
          match wat with
          | true =>
            match toText bytes with
            | none => (.error .textConversionError, [])
            | some t =>
              (.ok g2, [if hasOut then Effect.writeFile t else Effect.writeStdout t])
          | false =>
            (.ok g2, [if hasOut then Effect.writeFile bytes else Effect.writeStdout bytes])

/-- PlugCommand exec (plug.rs lines 87-214): the resolution phase
followed by the finishing phase.  The socket export names handed to the
finalization loop are read back from the registered socket package in the
graph, as the source does. -/
def exec (sub : Ty → Ty → Bool) (encodeG : Graph → Option (List Nat))
    (toText : List Nat → Option (List Nat)) (isTerm wat hasOut : Bool)
    (socketPkg : PkgData) (plugs : List PackageRef) (hashOrder : List String) :
    Except Err Graph × List Effect :=
  match runPlugs sub socketPkg plugs hashOrder with
  | .error e => (.error e, [])
  | .ok gl =>
    finishAfterPlugs encodeG toText isTerm wat hasOut
      ((pkgOfId gl.1 0).exports.map Prod.fst) 0 gl.1

/-- A graph is well formed when every instance refers to a registered
package; the runs of exec only build such graphs. -/
def WfGraph (g : Graph) : Prop :=
  ∀ x ∈ g.instances, x.pkg < g.packages.length

/-- A cache is sound for an oracle when every stored verdict agrees with
the oracle. -/
def CacheSound (sub : Ty → Ty → Bool) (cache : Cache) : Prop :=
  ∀ a b v, lookupA cache (a, b) = some v → v = sub a b

/-- Claim-level final plug name, written after the words of claim C8: a
local-path plug is named after its file stem with the marker "plug:" in
front, a registry plug keeps its unprefixed name, and a member of a group
with more than one member gets its zero-based in-group index appended. -/
def claimFinalName (r : PackageRef) (groupSize i : Nat) : Option String :=
  (match r with
   | .localPath (some s) _ => some ("plug:" ++ s)
   | .localPath none _ => none
   | .registryPackage n _ => some n).map
    (fun b => b ++ (if groupSize > 1 then toString i else ""))

/-! Concrete fixtures used by witnesses and counterexamples.  The subtype
oracle instances are total functions; the encode and text collaborators
are stubs for the external encoder, which the claims never inspect. -/

/-- Oracle that accepts every pair. -/
def subAll : Ty → Ty → Bool := fun _ _ => true

/-- Oracle that accepts only equal descriptors. -/
def subEq : Ty → Ty → Bool := fun a b => a == b

/-- External encode collaborator that always succeeds. -/
def encOk : Graph → Option (List Nat) := fun _ => some [0]

/-- External text collaborator that always succeeds. -/
def txtOk : List Nat → Option (List Nat) := fun b => some b

/-- A socket package importing names a and b and exporting e. -/
def spAB : PkgData := ⟨[("a", 0), ("b", 0)], [("e", 0)]⟩

/-- Package data of a plug exporting a. -/
def pX : PkgData := ⟨[], [("a", 1)]⟩

/-- A local plug with stem x exporting a. -/
def plugX : PackageRef := .localPath (some "x") pX

/-- A local plug with stem y exporting b. -/
def plugY : PackageRef := .localPath (some "y") ⟨[], [("b", 1)]⟩

/-- A local plug with stem z also exporting a, colliding with plugX. -/
def plugZ : PackageRef := .localPath (some "z") ⟨[], [("a", 2)]⟩

/-- The graph right after socket registration and instantiation. -/
def gSock : Graph := ⟨[("socket", spAB)], [⟨0, []⟩], []⟩

/-- The graph after plugging plugX into gSock. -/
def g2X : Graph :=
  ⟨[("socket", spAB), ("plug:x", pX)], [⟨0, [("a", (1, "a"))]⟩, ⟨1, []⟩], []⟩

/-- The cache and oracle-call statistics of that call. -/
def stX : Cache × Nat := ([((1, 0), true)], 1)

/-- The final graph of a successful two-plug composition. -/
def gFull : Graph :=
  ⟨[("socket", spAB), ("plug:x", pX), ("plug:y", ⟨[], [("b", 1)]⟩)],
   [⟨0, [("a", (1, "a")), ("b", (2, "b"))]⟩, ⟨1, []⟩, ⟨2, []⟩],
   [("e", (0, "e"))]⟩

/-- A socket importing x at type 0, for the incompatible-plug witness. -/
def gSockX : Graph := ⟨[("socket", ⟨[("x", 0)], [("e", 0)]⟩)], [⟨0, []⟩], []⟩

/-! Helper lemmas about association-list lookup and list surgery. -/

theorem lookupA_append {α β : Type} [DecidableEq α] (l1 l2 : List (α × β)) (k : α) :
    lookupA (l1 ++ l2) k =
      match lookupA l1 k with
      | some v => some v
      | none => lookupA l2 k := by
  induction l1 with
  | nil => simp [lookupA]
  | cons h t ih =>
    obtain ⟨k2, v2⟩ := h
    by_cases hk : k2 = k <;> simp [lookupA, hk, ih]

theorem lookupA_append_left {α β : Type} [DecidableEq α] {l1 : List (α × β)} {k : α}
    {v : β} (l2 : List (α × β)) (h : lookupA l1 k = some v) :
    lookupA (l1 ++ l2) k = some v := by
  rw [lookupA_append, h]

theorem lookupA_append_right {α β : Type} [DecidableEq α] {l1 : List (α × β)} {k : α}
    (l2 : List (α × β)) (h : lookupA l1 k = none) :
    lookupA (l1 ++ l2) k = lookupA l2 k := by
  rw [lookupA_append, h]

theorem lookupA_isSome_of_mem {α β : Type} [DecidableEq α] {l : List (α × β)}
    {k : α} {v : β} (h : (k, v) ∈ l) : (lookupA l k).isSome := by
  induction l with
  | nil => simp at h
  | cons hd t ih =>
    obtain ⟨k2, v2⟩ := hd
    rcases List.mem_cons.mp h with h1 | h2
    · obtain ⟨rfl, rfl⟩ := Prod.mk.injEq .. ▸ h1
      simp [lookupA]
    · by_cases hk : k2 = k <;> simp [lookupA, hk, ih h2]

theorem lookupA_mem_keys {α β : Type} [DecidableEq α] (l : List (α × β)) (k : α) :
    (lookupA l k).isSome ↔ k ∈ l.map Prod.fst := by
  induction l with
  | nil => simp [lookupA]
  | cons hd t ih =>
    obtain ⟨k2, v2⟩ := hd
    by_cases hk : k2 = k
    · subst hk; simp [lookupA]
    · simp only [lookupA, hk, if_false, List.map_cons, List.mem_cons, ih]
      constructor
      · exact Or.inr
      · rintro (rfl | hh)
        · exact absurd rfl hk
        · exact hh

theorem lookupA_map_self {j : Nat} (names : List String) (n : String) :
    lookupA (names.map (fun m => (m, (j, m)))) n =
      if n ∈ names then some (j, n) else none := by
  induction names with
  | nil => simp [lookupA]
  | cons h t ih =>
    by_cases hk : h = n
    · subst hk; simp [lookupA, ih]
    · simp only [List.map_cons, lookupA, hk, if_false, ih, List.mem_cons]
      by_cases hn : n ∈ t
      · simp [hn]
      · have hnh : ¬(n = h) := fun hh => hk hh.symm
        simp [hn, hnh]

theorem get?_append_left {α : Type} {l : List α} (l2 : List α) {k : Nat}
    (h : k < l.length) : (l ++ l2).get? k = l.get? k := by
  induction l generalizing k with
  | nil => simp at h
  | cons hd t ih =>
    cases k with
    | zero => rfl
    | succ k2 => exact ih (Nat.lt_of_succ_lt_succ h)

theorem get?_set_self {α : Type} {l : List α} {i : Nat} (a : α)
    (h : i < l.length) : (l.set i a).get? i = some a := by
  induction l generalizing i with
  | nil => simp at h
  | cons hd t ih =>
    cases i with
    | zero => rfl
    | succ i2 => exact ih (Nat.lt_of_succ_lt_succ h)

theorem get?_set_ne {α : Type} {l : List α} {i j : Nat} (a : α)
    (h : i ≠ j) : (l.set i a).get? j = l.get? j := by
  induction l generalizing i j with
  | nil => simp
  | cons hd t ih =>
    cases i with
    | zero =>
      cases j with
      | zero => exact absurd rfl h
      | succ j2 => rfl
    | succ i2 =>
      cases j with
      | zero => rfl
      | succ j2 => exact ih (fun hh => h (congrArg Nat.succ hh))

theorem map_set_same {α β : Type} {l : List α} {i : Nat} {a b : α} (f : α → β)
    (hget : l.get? i = some a) (hf : f b = f a) :
    (l.set i b).map f = l.map f := by
  induction l generalizing i with
  | nil => simp at hget
  | cons hd t ih =>
    cases i with
    | zero =>
      simp only [List.get?] at hget
      obtain rfl := Option.some.injEq .. ▸ hget
      simp [hf]
    | succ i2 =>
      simp only [List.get?] at hget
      simp [ih hget]

/-! Lemmas about the matching pass: the cache does not change the matched
names, and the number of oracle invocations counts the distinct candidate
pairs not already cached. -/

theorem cacheSound_extend {sub : Ty → Ty → Bool} {cache : Cache}
    (hs : CacheSound sub cache) (a b : Ty) :
    CacheSound sub (cache ++ [((a, b), sub a b)]) := by
  intro x y v hv
  rw [lookupA_append] at hv
  cases hx : lookupA cache (x, y) with
  | some w => rw [hx] at hv; exact hs x y v (hx.trans hv)
  | none =>
    rw [hx] at hv
    simp only [lookupA] at hv
    by_cases he : (a, b) = (x, y)
    · obtain ⟨rfl, rfl⟩ := Prod.mk.injEq .. ▸ he
      simp at hv
      exact hv.symm
    · simp [he] at hv

theorem computeMatchesAux_fst (sub : Ty → Ty → Bool) (sp : PkgData)
    (l : List (String × Ty)) (acc : List String) (cache : Cache) (calls : Nat)
    (hs : CacheSound sub cache) :
    (computeMatchesAux sub sp l acc cache calls).1 = acc ++ matchedNamesAux sub sp l := by
  induction l generalizing acc cache calls with
  | nil => simp [computeMatchesAux, matchedNamesAux]
  | cons hd t ih =>
    obtain ⟨n, pty⟩ := hd
    simp only [computeMatchesAux, matchedNamesAux]
    cases him : lookupA sp.imports n with
    | none => exact ih acc cache calls hs
    | some sty =>
      cases hc : lookupA cache (pty, sty) with
      | some v =>
        have hv : v = sub pty sty := hs pty sty v hc
        subst hv
        by_cases hsub : sub pty sty = true
        · simp only [hc, hsub, if_true, ih _ _ _ hs, List.append_assoc,
            List.singleton_append]
        · simp only [Bool.not_eq_true] at hsub
          simp only [hc, hsub, Bool.false_eq_true, if_false, ih _ _ _ hs]
      | none =>
        have hs2 := cacheSound_extend hs pty sty
        by_cases hsub : sub pty sty = true
        · rw [hsub] at hs2
          simp only [hc, hsub, if_true, ih _ _ _ hs2, List.append_assoc,
            List.singleton_append]
        · simp only [Bool.not_eq_true] at hsub
          rw [hsub] at hs2
          simp only [hc, hsub, Bool.false_eq_true, if_false, ih _ _ _ hs2]

theorem computeMatches_fst (sub : Ty → Ty → Bool) (plug sp : PkgData) :
    (computeMatches sub plug sp).1 = matchedNames sub plug sp := by
  have h := computeMatchesAux_fst sub sp plug.exports [] [] 0 (by intro a b v hv; simp [lookupA] at hv)
  simpa [computeMatches, matchedNames] using h

theorem computeMatchesAux_calls (sub : Ty → Ty → Bool) (sp : PkgData)
    (l : List (String × Ty)) (acc : List String) (cache : Cache) (calls : Nat) :
    (computeMatchesAux sub sp l acc cache calls).2.2 =
      calls + newDistinct (cache.map Prod.fst) (candPairsAux sp l) := by
  induction l generalizing acc cache calls with
  | nil => simp [computeMatchesAux, candPairsAux, newDistinct]
  | cons hd t ih =>
    obtain ⟨n, pty⟩ := hd
    simp only [computeMatchesAux, candPairsAux]
    cases him : lookupA sp.imports n with
    | none => exact ih acc cache calls
    | some sty =>
      cases hc : lookupA cache (pty, sty) with
      | some v =>
        have hmem : (pty, sty) ∈ cache.map Prod.fst :=
          (lookupA_mem_keys cache (pty, sty)).mp (by simp [hc])
        simp only [hc, newDistinct, hmem, if_true, ih]
      | none =>
        have hmem : (pty, sty) ∉ cache.map Prod.fst := by
          intro hin
          have := (lookupA_mem_keys cache (pty, sty)).mpr hin
          simp [hc] at this
        have hkeys : (cache ++ [((pty, sty), sub pty sty)]).map Prod.fst =
            cache.map Prod.fst ++ [(pty, sty)] := by simp
        simp only [hc, newDistinct, hmem, if_false, ih, hkeys]
        omega

theorem computeMatches_calls (sub : Ty → Ty → Bool) (plug sp : PkgData) :
    (computeMatches sub plug sp).2.2 = newDistinct [] (candPairs plug sp) := by
  have h := computeMatchesAux_calls sub sp plug.exports [] [] 0
  simpa [computeMatches, candPairs] using h

theorem mem_matchedNamesAux {sub : Ty → Ty → Bool} {sp : PkgData}
    {l : List (String × Ty)} {n : String} :
    n ∈ matchedNamesAux sub sp l ↔
      ∃ pty sty, (n, pty) ∈ l ∧ lookupA sp.imports n = some sty ∧ sub pty sty = true := by
  induction l with
  | nil => simp [matchedNamesAux]
  | cons hd t ih =>
    obtain ⟨m, pty⟩ := hd
    simp only [matchedNamesAux]
    cases him : lookupA sp.imports m with
    | none =>
      rw [ih]
      constructor
      · rintro ⟨p, s, hmem, hl, hsub⟩
        exact ⟨p, s, List.mem_cons_of_mem _ hmem, hl, hsub⟩
      · rintro ⟨p, s, hmem, hl, hsub⟩
        rcases List.mem_cons.mp hmem with h1 | h2
        · obtain ⟨h1a, h1b⟩ := Prod.ext_iff.mp h1
          simp only at h1a h1b
          subst h1a
          rw [him] at hl; cases hl
        · exact ⟨p, s, h2, hl, hsub⟩
    | some sty =>
      by_cases hsub : sub pty sty = true
      · simp only [hsub, if_true]
        rw [List.mem_cons, ih]
        constructor
        · rintro (rfl | ⟨p, s, hmem, hl, hs2⟩)
          · exact ⟨pty, sty, List.mem_cons_self _ _, him, hsub⟩
          · exact ⟨p, s, List.mem_cons_of_mem _ hmem, hl, hs2⟩
        · rintro ⟨p, s, hmem, hl, hs2⟩
          rcases List.mem_cons.mp hmem with h1 | h2
          · obtain ⟨h1a, h1b⟩ := Prod.ext_iff.mp h1
            simp only at h1a h1b
            exact Or.inl h1a
          · exact Or.inr ⟨p, s, h2, hl, hs2⟩
      · simp only [Bool.not_eq_true] at hsub
        simp only [hsub, Bool.false_eq_true, if_false]
        rw [ih]
        constructor
        · rintro ⟨p, s, hmem, hl, hs2⟩
          exact ⟨p, s, List.mem_cons_of_mem _ hmem, hl, hs2⟩
        · rintro ⟨p, s, hmem, hl, hs2⟩
          rcases List.mem_cons.mp hmem with h1 | h2
          · obtain ⟨h1a, h1b⟩ := Prod.ext_iff.mp h1
            simp only at h1a h1b
            subst h1a; subst h1b
            rw [him] at hl
            obtain rfl := Option.some.injEq .. ▸ hl
            rw [hsub] at hs2; cases hs2
          · exact ⟨p, s, h2, hl, hs2⟩

theorem mem_matchedNames {sub : Ty → Ty → Bool} {plug sp : PkgData} {n : String} :
    n ∈ matchedNames sub plug sp ↔
      ∃ pty sty, (n, pty) ∈ plug.exports ∧ lookupA sp.imports n = some sty ∧
        sub pty sty = true :=
  mem_matchedNamesAux

theorem matchedNames_nil_imports (sub : Ty → Ty → Bool) {plug sp : PkgData}
    (h : sp.imports = []) : matchedNames sub plug sp = [] := by
  unfold matchedNames
  induction plug.exports with
  | nil => rfl
  | cons hd t ih =>
    obtain ⟨n, pty⟩ := hd
    simp [matchedNamesAux, h, lookupA, ih]

theorem nodup_keys_mem_unique {α β : Type} [DecidableEq α] {l : List (α × β)}
    (hnd : (l.map Prod.fst).Nodup) {n : α} {a b : β}
    (ha : (n, a) ∈ l) (hb : (n, b) ∈ l) : a = b := by
  induction l with
  | nil => simp at ha
  | cons hd t ih =>
    obtain ⟨k, v⟩ := hd
    simp only [List.map_cons, List.nodup_cons] at hnd
    rcases List.mem_cons.mp ha with h1 | h2 <;> rcases List.mem_cons.mp hb with h3 | h4
    · obtain ⟨rfl, rfl⟩ := Prod.mk.injEq .. ▸ h1
      obtain ⟨_, rfl⟩ := Prod.mk.injEq .. ▸ h3
      rfl
    · obtain ⟨rfl, rfl⟩ := Prod.mk.injEq .. ▸ h1
      exact absurd (List.mem_map.mpr ⟨(n, b), h4, rfl⟩) hnd.1
    · obtain ⟨rfl, rfl⟩ := Prod.mk.injEq .. ▸ h3
      exact absurd (List.mem_map.mpr ⟨(n, a), h2, rfl⟩) hnd.1
    · exact ih hnd.2 h2 h4

/-! Lemmas about the wiring loop and plug_into_socket. -/

theorem lookupA_append_none {α β : Type} [DecidableEq α] {l1 l2 : List (α × β)}
    {k : α} (h : lookupA (l1 ++ l2) k = none) :
    lookupA l1 k = none ∧ lookupA l2 k = none := by
  rw [lookupA_append] at h
  cases h1 : lookupA l1 k with
  | some v => rw [h1] at h; cases h
  | none => rw [h1] at h; exact ⟨rfl, h⟩

theorem get?_lt {α : Type} {l : List α} {k : Nat} {a : α}
    (h : l.get? k = some a) : k < l.length := by
  induction l generalizing k with
  | nil => cases h
  | cons hd t ih =>
    cases k with
    | zero => simp
    | succ k2 => exact Nat.succ_lt_succ (ih h)

theorem get?_append_length {α : Type} (l : List α) (a : α) :
    (l ++ [a]).get? l.length = some a := by
  induction l with
  | nil => rfl
  | cons hd t ih => exact ih

theorem get?_of_lt {α : Type} {l : List α} {k : Nat} (h : k < l.length) :
    ∃ a, l.get? k = some a := by
  induction l generalizing k with
  | nil => simp at h
  | cons hd t ih =>
    cases k with
    | zero => exact ⟨hd, rfl⟩
    | succ k2 => exact ih (Nat.lt_of_succ_lt_succ h)

theorem get?_map_pkg_set {g : Graph} {s k : Nat} {si : InstanceNode}
    (hsi : g.instances.get? s = some si) (args2 : List (String × (Nat × String))) :
    ((g.instances.set s ⟨si.pkg, args2⟩).get? k).map (fun x => x.pkg) =
      (g.instances.get? k).map (fun x => x.pkg) := by
  by_cases hk : s = k
  · subst hk
    rw [get?_set_self _ (get?_lt hsi), hsi]
    rfl
  · rw [get?_set_ne _ hk]

theorem wireLoop_none_cons (s pid : Nat) (n : String) (rest : List String) (g : Graph) :
    wireLoop s pid (n :: rest) g none =
      wireLoop s pid (n :: rest) (instantiate g pid).1 (some (instantiate g pid).2) := by
  rfl

theorem wireLoop_some_char {s pid j : Nat} {names : List String} {g g2 : Graph}
    {o : Option Nat} {si : InstanceNode}
    (hok : wireLoop s pid names g (some j) = .ok (g2, o))
    (hsi : g.instances.get? s = some si) :
    o = some j ∧ g2.packages = g.packages ∧ g2.exports = g.exports ∧
    g2.instances.get? s = some ⟨si.pkg, si.args ++ names.map (fun n => (n, (j, n)))⟩ ∧
    (∀ k, k ≠ s → g2.instances.get? k = g.instances.get? k) ∧
    g2.instances.map (fun x => x.pkg) = g.instances.map (fun x => x.pkg) ∧
    (∀ n ∈ names, lookupA si.args n = none) := by
  induction names generalizing g si with
  | nil =>
    simp only [wireLoop] at hok
    injection hok with h
    injection h with h1 h2
    subst h1; subst h2
    refine ⟨rfl, rfl, rfl, ?_, fun k _ => rfl, rfl, by simp⟩
    simpa using hsi
  | cons n rest ih =>
    simp only [wireLoop] at hok
    cases halias : alias_instance_export g j n with
    | error e => rw [halias] at hok; simp at hok
    | ok ref =>
      have href : ref = (j, n) := by
        cases hpj : pkgOfInstance g j with
        | none => simp [alias_instance_export, hpj] at halias
        | some pj =>
          cases hl : lookupA pj.exports n with
          | none => simp [alias_instance_export, hpj, hl] at halias
          | some w =>
            simp only [alias_instance_export, hpj, hl] at halias
            exact (Except.ok.inj halias).symm
      subst href
      rw [halias] at hok
      simp only at hok
      have hsi2 : g.instances[s]? = some si :=
        (List.get?_eq_getElem? g.instances s).symm.trans hsi
      cases hset : set_instantiation_argument g s n (j, n) with
      | error e => rw [hset] at hok; simp at hok
      | ok g1 =>
        rw [hset] at hok
        simp only at hok
        cases hps : pkgOfInstance g s with
        | none => simp [set_instantiation_argument, hsi2, hps] at hset
        | some ps =>
          cases h1 : lookupA ps.imports n with
          | none => simp [set_instantiation_argument, hsi2, hps, h1] at hset
          | some w1 =>
            cases hargn : lookupA si.args n with
            | some w2 => simp [set_instantiation_argument, hsi2, hps, h1, hargn] at hset
            | none =>
              simp only [set_instantiation_argument, hsi, hps, h1, hargn] at hset
              have hg1 : g1 = { g with
                  instances := g.instances.set s ⟨si.pkg, si.args ++ [(n, (j, n))]⟩ } :=
                (Except.ok.inj hset).symm
              subst hg1
              have hsi1 : (g.instances.set s ⟨si.pkg, si.args ++ [(n, (j, n))]⟩).get? s =
                  some ⟨si.pkg, si.args ++ [(n, (j, n))]⟩ :=
                get?_set_self _ (get?_lt hsi)
              obtain ⟨ho, hpk, hex, hgs, hne, hmap, hnone⟩ := ih hok hsi1
              refine ⟨ho, hpk, hex, ?_, ?_, ?_, ?_⟩
              · rw [hgs]; simp
              · intro k hk
                rw [hne k hk]
                exact get?_set_ne _ (fun hh => hk hh.symm)
              · rw [hmap]
                exact map_set_same
                  (b := ⟨si.pkg, si.args ++ [(n, (j, n))]⟩) (fun x => x.pkg) hsi rfl
              · intro m hm
                rcases List.mem_cons.mp hm with rfl | hm2
                · exact hargn
                · exact (lookupA_append_none (hnone m hm2)).1

theorem set_arg_ok_shape {g g1 : Graph} {i : Nat} {n : String} {ref : Nat × String}
    (h : set_instantiation_argument g i n ref = .ok g1) :
    ∃ si, g.instances.get? i = some si ∧ lookupA si.args n = none ∧
      g1 = { g with instances := g.instances.set i ⟨si.pkg, si.args ++ [(n, ref)]⟩ } := by
  unfold set_instantiation_argument at h
  cases hgi : g.instances.get? i with
  | none => rw [hgi] at h; cases h
  | some si =>
    rw [hgi] at h
    cases hpi : pkgOfInstance g i with
    | none => rw [hpi] at h; cases h
    | some p =>
      rw [hpi] at h
      simp only at h
      cases h1 : lookupA p.imports n with
      | none => rw [h1] at h; cases h
      | some w =>
        rw [h1] at h
        simp only at h
        cases h2 : lookupA si.args n with
        | some w2 => rw [h2] at h; cases h
        | none =>
          rw [h2] at h
          simp only at h
          exact ⟨si, rfl, h2, (Except.ok.inj h).symm⟩

theorem alias_ok_ref {g : Graph} {i : Nat} {n : String} {ref : Nat × String}
    (h : alias_instance_export g i n = .ok ref) : ref = (i, n) := by
  unfold alias_instance_export at h
  cases hpi : pkgOfInstance g i with
  | none => rw [hpi] at h; cases h
  | some p =>
    rw [hpi] at h
    simp only at h
    cases hl : lookupA p.exports n with
    | none => rw [hl] at h; cases h
    | some w =>
      rw [hl] at h
      exact (Except.ok.inj h).symm

theorem wireLoop_mono_some {s pid j : Nat} {names : List String} {g g2 : Graph}
    {o : Option Nat} (hok : wireLoop s pid names g (some j) = .ok (g2, o)) :
    g2.packages = g.packages ∧ g2.exports = g.exports := by
  induction names generalizing g with
  | nil =>
    simp only [wireLoop] at hok
    injection hok with h
    injection h with h1 h2
    subst h1
    exact ⟨rfl, rfl⟩
  | cons n rest ih =>
    simp only [wireLoop] at hok
    cases halias : alias_instance_export g j n with
    | error e => rw [halias] at hok; simp at hok
    | ok ref =>
      rw [halias] at hok
      simp only at hok
      cases hset : set_instantiation_argument g s n ref with
      | error e => rw [hset] at hok; simp at hok
      | ok g1 =>
        rw [hset] at hok
        simp only at hok
        obtain ⟨si, _, _, hg1⟩ := set_arg_ok_shape hset
        obtain ⟨hp, he⟩ := ih hok
        subst hg1
        exact ⟨hp, he⟩

theorem wireLoop_mono {s pid : Nat} {names : List String} {g g2 : Graph}
    {inst o : Option Nat} (hok : wireLoop s pid names g inst = .ok (g2, o)) :
    g2.packages = g.packages ∧ g2.exports = g.exports := by
  cases names with
  | nil =>
    simp only [wireLoop] at hok
    injection hok with h
    injection h with h1 h2
    subst h1
    exact ⟨rfl, rfl⟩
  | cons n rest =>
    cases inst with
    | some j => exact wireLoop_mono_some hok
    | none =>
      rw [wireLoop_none_cons] at hok
      have h := wireLoop_mono_some hok
      exact ⟨h.1, h.2⟩

theorem wireLoop_conflict_some {s pid j : Nat} {names : List String} {g : Graph}
    {P SP : PkgData} {si : InstanceNode}
    (hjq : (g.instances.get? j).map (fun x => x.pkg) = some pid)
    (hpid : (g.packages.get? pid).map Prod.snd = some P)
    (hexp : ∀ m ∈ names, (lookupA P.exports m).isSome)
    (hsi : g.instances.get? s = some si)
    (hsp : (g.packages.get? si.pkg).map Prod.snd = some SP)
    (himp : ∀ m ∈ names, (lookupA SP.imports m).isSome)
    (hconf : ∃ m, m ∈ names ∧ (lookupA si.args m).isSome) :
    wireLoop s pid names g (some j) = .error .alreadySet := by
  induction names generalizing g si with
  | nil => obtain ⟨m, hm, _⟩ := hconf; cases hm
  | cons m rest ih =>
    obtain ⟨w, hw⟩ := Option.isSome_iff_exists.mp (hexp m (List.mem_cons_self _ _))
    obtain ⟨w1, hw1⟩ := Option.isSome_iff_exists.mp (himp m (List.mem_cons_self _ _))
    have hpj : pkgOfInstance g j = some P := by
      cases hgj : g.instances.get? j with
      | none => rw [hgj] at hjq; cases hjq
      | some xj =>
        rw [hgj] at hjq
        have hx : xj.pkg = pid := by simpa using hjq
        unfold pkgOfInstance
        rw [hgj]
        show (g.packages.get? xj.pkg).map Prod.snd = some P
        rw [hx]
        exact hpid
    have hps : pkgOfInstance g s = some SP := by
      unfold pkgOfInstance
      rw [hsi]
      simpa using hsp
    have hsi2 : g.instances[s]? = some si :=
      (List.get?_eq_getElem? g.instances s).symm.trans hsi
    have halias : alias_instance_export g j m = .ok (j, m) := by
      simp [alias_instance_export, hpj, hw]
    simp only [wireLoop, halias]
    cases hm : lookupA si.args m with
    | some w2 =>
      have hset : set_instantiation_argument g s m (j, m) = .error .alreadySet := by
        simp [set_instantiation_argument, hsi, hsi2, hps, hw1, hm]
      rw [hset]
    | none =>
      have hset : set_instantiation_argument g s m (j, m) =
          .ok { g with instances := g.instances.set s ⟨si.pkg, si.args ++ [(m, (j, m))]⟩ } := by
        simp [set_instantiation_argument, hsi, hsi2, hps, hw1, hm]
      rw [hset]
      simp only
      apply ih
      · rw [get?_map_pkg_set hsi]
        exact hjq
      · exact hpid
      · exact fun m2 hm2 => hexp m2 (List.mem_cons_of_mem _ hm2)
      · exact get?_set_self _ (get?_lt hsi)
      · exact hsp
      · exact fun m2 hm2 => himp m2 (List.mem_cons_of_mem _ hm2)
      · obtain ⟨mc, hmem, hsome⟩ := hconf
        rcases List.mem_cons.mp hmem with rfl | hrest
        · rw [hm] at hsome; cases hsome
        · obtain ⟨wc, hwc⟩ := Option.isSome_iff_exists.mp hsome
          exact ⟨mc, hrest, by simp [lookupA_append_left _ hwc]⟩

theorem wireLoop_conflict {s pid : Nat} {names : List String} {g : Graph}
    (inst : Option Nat) (P SP : PkgData) (si : InstanceNode)
    (hinst : ∀ j, inst = some j → (g.instances.get? j).map (fun x => x.pkg) = some pid)
    (hpid : (g.packages.get? pid).map Prod.snd = some P)
    (hexp : ∀ m ∈ names, (lookupA P.exports m).isSome)
    (hsi : g.instances.get? s = some si)
    (hsp : (g.packages.get? si.pkg).map Prod.snd = some SP)
    (himp : ∀ m ∈ names, (lookupA SP.imports m).isSome)
    (hconf : ∃ m, m ∈ names ∧ (lookupA si.args m).isSome) :
    wireLoop s pid names g inst = .error .alreadySet := by
  cases names with
  | nil => obtain ⟨m, hm, _⟩ := hconf; cases hm
  | cons n rest =>
    cases inst with
    | some j => exact wireLoop_conflict_some (hinst j rfl) hpid hexp hsi hsp himp hconf
    | none =>
      rw [wireLoop_none_cons]
      have h1 : ((g.instances ++ [InstanceNode.mk pid []]).get? g.instances.length).map
          (fun x => x.pkg) = some pid := by
        rw [get?_append_length]
        rfl
      have h2 : (g.instances ++ [InstanceNode.mk pid []]).get? s = some si := by
        rw [get?_append_left _ (get?_lt hsi)]
        exact hsi
      exact wireLoop_conflict_some h1 hpid hexp h2 hsp himp hconf

theorem pkgOfId_append {g : Graph} {socket : Nat} (l : List (String × PkgData))
    (i2 : List InstanceNode) (e2 : List (String × (Nat × String)))
    (h : socket < g.packages.length) :
    pkgOfId ⟨g.packages ++ l, i2, e2⟩ socket = pkgOfId g socket := by
  unfold pkgOfId
  rw [show (Graph.mk (g.packages ++ l) i2 e2).packages = g.packages ++ l from rfl,
    get?_append_left _ h]

theorem plug_into_socket_eq (sub : Ty → Ty → Bool) (name : String) (p : PkgData)
    (socket sInst : Nat) (g : Graph) :
    plug_into_socket sub name p socket sInst g =
      match wireLoop sInst g.packages.length
          (matchedNames sub p (pkgOfId ⟨g.packages ++ [(name, p)], g.instances, g.exports⟩ socket))
          ⟨g.packages ++ [(name, p)], g.instances, g.exports⟩ none with
      | .error e => .error e
      | .ok gi =>
        .ok (gi.1,
          (computeMatches sub p
            (pkgOfId ⟨g.packages ++ [(name, p)], g.instances, g.exports⟩ socket)).2) := by
  unfold plug_into_socket register_package
  dsimp only
  rw [computeMatches_fst]

theorem plug_into_socket_mono {sub : Ty → Ty → Bool} {name : String} {p : PkgData}
    {socket sInst : Nat} {g g2 : Graph} {st : Cache × Nat}
    (hok : plug_into_socket sub name p socket sInst g = .ok (g2, st)) :
    g2.packages = g.packages ++ [(name, p)] ∧ g2.exports = g.exports := by
  rw [plug_into_socket_eq] at hok
  cases hw : wireLoop sInst g.packages.length
      (matchedNames sub p (pkgOfId ⟨g.packages ++ [(name, p)], g.instances, g.exports⟩ socket))
      ⟨g.packages ++ [(name, p)], g.instances, g.exports⟩ none with
  | error e => rw [hw] at hok; simp at hok
  | ok gi =>
    rw [hw] at hok
    simp only at hok
    obtain ⟨hg, _⟩ := Prod.ext_iff.mp (Except.ok.inj hok)
    simp only at hg
    subst hg
    obtain ⟨hp, he⟩ := wireLoop_mono (o := gi.2) (by rw [← hw])
    exact ⟨hp, he⟩

theorem plug_into_socket_empty (sub : Ty → Ty → Bool) (name : String) (p : PkgData)
    (socket sInst : Nat) (g : Graph)
    (hm : matchedNames sub p (pkgOfId ⟨g.packages ++ [(name, p)], g.instances, g.exports⟩ socket) = []) :
    plug_into_socket sub name p socket sInst g =
      .ok (⟨g.packages ++ [(name, p)], g.instances, g.exports⟩,
        (computeMatches sub p
          (pkgOfId ⟨g.packages ++ [(name, p)], g.instances, g.exports⟩ socket)).2) := by
  rw [plug_into_socket_eq, hm]
  rfl

theorem plug_into_socket_char {sub : Ty → Ty → Bool} {name : String} {p : PkgData}
    {socket sInst : Nat} {g g2 : Graph} {st : Cache × Nat} {si : InstanceNode}
    {m : String} {ms : List String}
    (hm : matchedNames sub p
      (pkgOfId ⟨g.packages ++ [(name, p)], g.instances, g.exports⟩ socket) = m :: ms)
    (hsi : g.instances.get? sInst = some si)
    (hok : plug_into_socket sub name p socket sInst g = .ok (g2, st)) :
    g2.packages = g.packages ++ [(name, p)] ∧ g2.exports = g.exports ∧
    g2.instances.get? sInst =
      some ⟨si.pkg, si.args ++ (m :: ms).map (fun n => (n, (g.instances.length, n)))⟩ ∧
    (∀ k, k ≠ sInst → g2.instances.get? k =
      (g.instances ++ [InstanceNode.mk g.packages.length []]).get? k) ∧
    g2.instances.map (fun x => x.pkg) =
      g.instances.map (fun x => x.pkg) ++ [g.packages.length] ∧
    (∀ n ∈ m :: ms, lookupA si.args n = none) := by
  rw [plug_into_socket_eq, hm] at hok
  cases hwl : wireLoop sInst g.packages.length (m :: ms)
      ⟨g.packages ++ [(name, p)], g.instances, g.exports⟩ none with
  | error e => rw [hwl] at hok; simp at hok
  | ok gi =>
    rw [hwl] at hok
    simp only at hok
    obtain ⟨hg, _⟩ := Prod.ext_iff.mp (Except.ok.inj hok)
    simp only at hg
    subst hg
    rw [wireLoop_none_cons] at hwl
    have hsi1 : ((instantiate ⟨g.packages ++ [(name, p)], g.instances, g.exports⟩
        g.packages.length).1).instances.get? sInst = some si := by
      show (g.instances ++ [InstanceNode.mk g.packages.length []]).get? sInst = some si
      rw [get?_append_left _ (get?_lt hsi)]
      exact hsi
    have hwl2 : wireLoop sInst g.packages.length (m :: ms)
        (instantiate ⟨g.packages ++ [(name, p)], g.instances, g.exports⟩ g.packages.length).1
        (some g.instances.length) = .ok (gi.1, gi.2) := by
      rw [← hwl]
      rfl
    obtain ⟨ho, hpk, hex, hgs, hne, hmap, hnone⟩ := wireLoop_some_char hwl2 hsi1
    refine ⟨hpk, hex, hgs, ?_, ?_, hnone⟩
    · intro k hk
      exact hne k hk
    · rw [hmap]
      simp [instantiate]

theorem exportValue_ok_shape {g g2 : Graph} {ref : Nat × String} {n : String}
    (h : exportValue g ref n = .ok g2) :
    lookupA g.exports n = none ∧ g2 = { g with exports := g.exports ++ [(n, ref)] } := by
  unfold exportValue at h
  cases hl : lookupA g.exports n with
  | some w => rw [hl] at h; cases h
  | none =>
    rw [hl] at h
    exact ⟨rfl, (Except.ok.inj h).symm⟩

theorem exportValue_err {g : Graph} {ref : Nat × String} {n : String} {e : Err}
    (h : exportValue g ref n = .error e) : e = .duplicateExport := by
  unfold exportValue at h
  cases hl : lookupA g.exports n with
  | some w => rw [hl] at h; exact (Except.error.inj h).symm
  | none => rw [hl] at h; cases h

theorem alias_err {g : Graph} {i : Nat} {n : String} {e : Err}
    (h : alias_instance_export g i n = .error e) : e = .unknownExport := by
  unfold alias_instance_export at h
  cases hpi : pkgOfInstance g i with
  | none => rw [hpi] at h; exact (Except.error.inj h).symm
  | some p =>
    rw [hpi] at h
    simp only at h
    cases hl : lookupA p.exports n with
    | none => rw [hl] at h; exact (Except.error.inj h).symm
    | some w => rw [hl] at h; cases h

theorem exportLoop_ok {sInst : Nat} {names : List String} {g g2 : Graph}
    (hok : exportLoop sInst names g = .ok g2) :
    g2.exports = g.exports ++ names.map (fun n => (n, (sInst, n))) ∧
    g2.packages = g.packages ∧ g2.instances = g.instances := by
  induction names generalizing g with
  | nil =>
    simp only [exportLoop] at hok
    obtain rfl := Except.ok.inj hok
    exact ⟨by simp, rfl, rfl⟩
  | cons n rest ih =>
    simp only [exportLoop] at hok
    cases halias : alias_instance_export g sInst n with
    | error e => rw [halias] at hok; simp at hok
    | ok ref =>
      rw [halias] at hok
      simp only at hok
      obtain rfl := alias_ok_ref halias
      cases hexp : exportValue g (sInst, n) n with
      | error e => rw [hexp] at hok; simp at hok
      | ok g1 =>
        rw [hexp] at hok
        simp only at hok
        obtain ⟨hl, hg1⟩ := exportValue_ok_shape hexp
        subst hg1
        obtain ⟨he, hp, hi⟩ := ih hok
        refine ⟨?_, hp, hi⟩
        rw [he]
        simp

theorem exportLoop_err {sInst : Nat} {names : List String} {g : Graph} {e : Err}
    (h : exportLoop sInst names g = .error e) :
    e = .unknownExport ∨ e = .duplicateExport := by
  induction names generalizing g with
  | nil => simp only [exportLoop] at h; cases h
  | cons n rest ih =>
    simp only [exportLoop] at h
    cases halias : alias_instance_export g sInst n with
    | error e2 =>
      rw [halias] at h
      simp only at h
      obtain rfl := Except.error.inj h
      exact Or.inl (alias_err halias)
    | ok ref =>
      rw [halias] at h
      simp only at h
      cases hexp : exportValue g ref n with
      | error e2 =>
        rw [hexp] at h
        simp only at h
        obtain rfl := Except.error.inj h
        exact Or.inr (exportValue_err hexp)
      | ok g1 =>
        rw [hexp] at h
        simp only at h
        exact ih h

/-! Invariants of the whole resolution phase. -/

theorem processRefs_inv {sub : Ty → Ty → Bool} {key : String} {len socket sInst : Nat}
    {i : Nat} {refs : List PackageRef} {g g2 : Graph}
    {logs logs2 : List (Cache × Nat)}
    (hok : processRefs sub key len socket sInst i refs g logs = .ok (g2, logs2)) :
    g2.exports = g.exports ∧ ∃ l, g2.packages = g.packages ++ l := by
  induction refs generalizing i g logs with
  | nil =>
    simp only [processRefs] at hok
    injection hok with h
    injection h with h1 h2
    subst h1
    exact ⟨rfl, [], by simp⟩
  | cons r rest ih =>
    simp only [processRefs] at hok
    cases hpis : plug_into_socket sub (finalPlugName key r len i) r.pkgOf socket sInst g with
    | error e => rw [hpis] at hok; simp at hok
    | ok gl =>
      obtain ⟨gg, stg⟩ := gl
      rw [hpis] at hok
      simp only at hok
      obtain ⟨hpk, hex⟩ := plug_into_socket_mono hpis
      obtain ⟨hex2, l, hpk2⟩ := ih hok
      refine ⟨hex2.trans hex, [(finalPlugName key r len i, r.pkgOf)] ++ l, ?_⟩
      rw [hpk2, hpk, List.append_assoc]

theorem processOrder_inv {sub : Ty → Ty → Bool}
    {groups : List (String × List PackageRef)} {socket sInst : Nat}
    {order : List String} {g g2 : Graph} {logs logs2 : List (Cache × Nat)}
    (hok : processOrder sub groups socket sInst order g logs = .ok (g2, logs2)) :
    g2.exports = g.exports ∧ ∃ l, g2.packages = g.packages ++ l := by
  induction order generalizing g logs with
  | nil =>
    simp only [processOrder] at hok
    injection hok with h
    injection h with h1 h2
    subst h1
    exact ⟨rfl, [], by simp⟩
  | cons key rest ih =>
    simp only [processOrder] at hok
    cases hl : lookupA groups key with
    | none =>
      rw [hl] at hok
      exact ih hok
    | some refs =>
      rw [hl] at hok
      simp only at hok
      cases hpr : processRefs sub key refs.length socket sInst 0 refs g logs with
      | error e => rw [hpr] at hok; simp at hok
      | ok gl =>
        obtain ⟨gg, ll⟩ := gl
        rw [hpr] at hok
        simp only at hok
        obtain ⟨hex, l, hpk⟩ := processRefs_inv hpr
        obtain ⟨hex2, l2, hpk2⟩ := ih hok
        refine ⟨hex2.trans hex, l ++ l2, ?_⟩
        rw [hpk2, hpk, List.append_assoc]

theorem runPlugs_inv {sub : Ty → Ty → Bool} {sp : PkgData} {plugs : List PackageRef}
    {order : List String} {g : Graph} {logs : List (Cache × Nat)}
    (hok : runPlugs sub sp plugs order = .ok (g, logs)) :
    g.exports = [] ∧ g.packages.get? 0 = some ("socket", sp) := by
  unfold runPlugs at hok
  dsimp only at hok
  cases hgr : groupPlugs plugs with
  | error e => rw [hgr] at hok; simp at hok
  | ok groups =>
    rw [hgr] at hok
    simp only at hok
    obtain ⟨hex, l, hpk⟩ := processOrder_inv hok
    constructor
    · exact hex
    · rw [hpk]
      rfl

theorem groupPlugsAux_ok {plugs : List PackageRef}
    (h : ∀ r ∈ plugs, (baseName r).isSome) (acc : List (String × List PackageRef)) :
    ∃ gs, groupPlugsAux acc plugs = .ok gs := by
  induction plugs generalizing acc with
  | nil => exact ⟨acc, rfl⟩
  | cons r rest ih =>
    obtain ⟨k, hk⟩ := Option.isSome_iff_exists.mp (h r (List.mem_cons_self _ _))
    simp only [groupPlugsAux, hk]
    exact ih (fun r2 hr2 => h r2 (List.mem_cons_of_mem _ hr2)) _

theorem processRefs_noImports {sub : Ty → Ty → Bool} {key : String}
    {len sInst : Nat} {sp : PkgData} (himp : sp.imports = [])
    {i : Nat} {refs : List PackageRef} {g : Graph} {logs : List (Cache × Nat)}
    (hsp : (g.packages.get? 0).map Prod.snd = some sp) :
    ∃ g2 logs2, processRefs sub key len 0 sInst i refs g logs = .ok (g2, logs2) ∧
      g2.instances = g.instances ∧ g2.exports = g.exports ∧
      (g2.packages.get? 0).map Prod.snd = some sp := by
  induction refs generalizing i g logs with
  | nil => exact ⟨g, logs, rfl, rfl, rfl, hsp⟩
  | cons r rest ih =>
    have h0 : (0 : Nat) < g.packages.length := by
      cases hq : g.packages.get? 0 with
      | none => rw [hq] at hsp; cases hsp
      | some w => exact get?_lt hq
    have hsp2 : ((⟨g.packages ++ [(finalPlugName key r len i, r.pkgOf)],
        g.instances, g.exports⟩ : Graph).packages.get? 0).map Prod.snd = some sp := by
      show ((g.packages ++ [(finalPlugName key r len i, r.pkgOf)]).get? 0).map
        Prod.snd = some sp
      rw [get?_append_left _ h0]
      exact hsp
    have hpid : pkgOfId ⟨g.packages ++ [(finalPlugName key r len i, r.pkgOf)],
        g.instances, g.exports⟩ 0 = sp := by
      unfold pkgOfId
      cases hq : (⟨g.packages ++ [(finalPlugName key r len i, r.pkgOf)],
          g.instances, g.exports⟩ : Graph).packages.get? 0 with
      | none => rw [hq] at hsp2; cases hsp2
      | some w =>
        rw [hq] at hsp2
        simpa using hsp2
    have hm : matchedNames sub r.pkgOf
        (pkgOfId ⟨g.packages ++ [(finalPlugName key r len i, r.pkgOf)],
          g.instances, g.exports⟩ 0) = [] := by
      rw [hpid]
      exact matchedNames_nil_imports sub himp
    simp only [processRefs,
      plug_into_socket_empty sub (finalPlugName key r len i) r.pkgOf 0 sInst g hm]
    exact ih hsp2

theorem processOrder_noImports {sub : Ty → Ty → Bool}
    {groups : List (String × List PackageRef)} {sInst : Nat} {sp : PkgData}
    (himp : sp.imports = []) {order : List String} {g : Graph}
    {logs : List (Cache × Nat)}
    (hsp : (g.packages.get? 0).map Prod.snd = some sp) :
    ∃ g2 logs2, processOrder sub groups 0 sInst order g logs = .ok (g2, logs2) ∧
      g2.instances = g.instances ∧ g2.exports = g.exports ∧
      (g2.packages.get? 0).map Prod.snd = some sp := by
  induction order generalizing g logs with
  | nil => exact ⟨g, logs, rfl, rfl, rfl, hsp⟩
  | cons key rest ih =>
    simp only [processOrder]
    cases hl : lookupA groups key with
    | none => exact ih hsp
    | some refs =>
      simp only
      obtain ⟨g1, logs1, hpr, hi1, he1, hsp1⟩ := processRefs_noImports himp hsp
      rw [hpr]
      simp only
      obtain ⟨g2, logs2, hpo, hi2, he2, hsp2⟩ := ih hsp1
      exact ⟨g2, logs2, hpo, hi2.trans hi1, he2.trans he1, hsp2⟩

theorem runPlugs_noImports {sub : Ty → Ty → Bool} {sp : PkgData}
    (himp : sp.imports = []) {plugs : List PackageRef} {order : List String}
    (hnames : ∀ r ∈ plugs, (baseName r).isSome) :
    ∃ g logs, runPlugs sub sp plugs order = .ok (g, logs) ∧
      g.instances = [InstanceNode.mk 0 []] := by
  unfold runPlugs
  dsimp only
  obtain ⟨gs, hgs⟩ := groupPlugsAux_ok hnames []
  rw [show groupPlugs plugs = .ok gs from hgs]
  simp only
  have hsp : (((instantiate (register_package ⟨[], [], []⟩ "socket" sp).1
      (register_package ⟨[], [], []⟩ "socket" sp).2).1).packages.get? 0).map
      Prod.snd = some sp := rfl
  obtain ⟨g2, logs2, hpo, hi, he, hsp2⟩ := processOrder_noImports himp hsp
  exact ⟨g2, logs2, hpo, hi⟩

/-! Lemmas about the finishing phase of exec. -/

theorem finishAfterPlugs_ok {encodeG : Graph → Option (List Nat)}
    {toText : List Nat → Option (List Nat)} {isTerm wat hasOut : Bool}
    {names : List String} {sInst : Nat} {g gf : Graph}
    (h : (finishAfterPlugs encodeG toText isTerm wat hasOut names sInst g).1 = .ok gf) :
    exportLoop sInst names g = .ok gf := by
  unfold finishAfterPlugs at h
  cases hargs : argsOf g sInst with
  | nil => rw [hargs] at h; simp at h
  | cons x xs =>
    rw [hargs] at h
    simp only at h
    cases hel : exportLoop sInst names g with
    | error e => rw [hel] at h; simp at h
    | ok g2 =>
      rw [hel] at h
      simp only at h
      cases hterm : !wat && !hasOut && isTerm with
      | true => rw [hterm] at h; simp at h
      | false =>
        rw [hterm] at h
        simp only at h
        cases henc : encodeG g2 with
        | none => rw [henc] at h; simp at h
        | some bytes =>
          rw [henc] at h
          simp only at h
          cases wat with
          | true =>
            simp only at h
            cases htxt : toText bytes with
            | none => rw [htxt] at h; simp at h
            | some t =>
              rw [htxt] at h
              simp only at h
              exact h
          | false =>
            simp only at h
            exact h

theorem finishAfterPlugs_ne_noMatching {encodeG : Graph → Option (List Nat)}
    {toText : List Nat → Option (List Nat)} {isTerm wat hasOut : Bool}
    {names : List String} {sInst : Nat} {g : Graph} {x : String × (Nat × String)}
    {xs : List (String × (Nat × String))} (hargs : argsOf g sInst = x :: xs) :
    (finishAfterPlugs encodeG toText isTerm wat hasOut names sInst g).1 ≠
      .error .noMatchingImports := by
  unfold finishAfterPlugs
  rw [hargs]
  simp only
  cases hel : exportLoop sInst names g with
  | error e =>
    rcases exportLoop_err hel with rfl | rfl <;> simp
  | ok g2 =>
    simp only
    cases hterm : !wat && !hasOut && isTerm with
    | true => simp
    | false =>
      simp only
      cases henc : encodeG g2 with
      | none => simp
      | some bytes =>
        simp only
        cases wat with
        | true =>
          simp only
          cases htxt : toText bytes with
          | none => simp
          | some t => simp
        | false => simp

theorem finishAfterPlugs_effects {encodeG : Graph → Option (List Nat)}
    {toText : List Nat → Option (List Nat)} {isTerm wat hasOut : Bool}
    {names : List String} {sInst : Nat} {g : Graph} :
    (finishAfterPlugs encodeG toText isTerm wat hasOut names sInst g).2 ≠ [] ↔
      ∃ gf, (finishAfterPlugs encodeG toText isTerm wat hasOut names sInst g).1 = .ok gf := by
  unfold finishAfterPlugs
  cases hargs : argsOf g sInst with
  | nil => simp
  | cons x xs =>
    simp only
    cases hel : exportLoop sInst names g with
    | error e => simp
    | ok g2 =>
      simp only
      cases hterm : !wat && !hasOut && isTerm with
      | true => simp
      | false =>
        simp only
        cases henc : encodeG g2 with
        | none => simp
        | some bytes =>
          simp only
          cases wat with
          | true =>
            simp only
            cases htxt : toText bytes with
            | none => simp
            | some t => simp
          | false => simp

/-! The claims. -/

/-- C1: the claim states that for a fixed input order of plug references
two runs of the resolution produce identical graphs.  The code iterates
the plug groups through a std HashMap whose iteration order is randomly
seeded per process, so the group order is not a function of the input
order; the model exposes it as the hashOrder parameter.  At the concrete
failing input below, both hash orders are permutations of the same group
keys, both runs succeed, and the resulting graphs differ (instance ids
and argument insertion order differ), so a run is not a function of the
input order alone. -/
theorem C1_hash_order_changes_graph :
    groupPlugs [plugX, plugY] = .ok [("x", [plugX]), ("y", [plugY])] ∧
    List.Perm ["x", "y"] ["x", "y"] ∧ List.Perm ["y", "x"] ["x", "y"] ∧
    (runPlugs subAll spAB [plugX, plugY] ["x", "y"]).toOption.map
      (fun r => r.1) ≠ none ∧
    (runPlugs subAll spAB [plugX, plugY] ["y", "x"]).toOption.map
      (fun r => r.1) ≠ none ∧
    (runPlugs subAll spAB [plugX, plugY] ["x", "y"]).toOption.map (fun r => r.1) ≠
      (runPlugs subAll spAB [plugX, plugY] ["y", "x"]).toOption.map (fun r => r.1) := by
  refine ⟨by decide, by decide, by decide, by decide, by decide, by decide⟩

/-- C3 counterexample: the claim states that exactly one subtype-checker
cache object is created per resolution run.  In the run below, with two
plugs, two plug_into_socket calls each create their own cache (the log
has one cache per call), so the number of caches created is 2, not 1. -/
theorem C3_counterexample :
    (runPlugs subAll spAB [plugX, plugY] ["x", "y"]).toOption.map
      (fun r => r.2.length) = some 2 ∧
    ¬ (runPlugs subAll spAB [plugX, plugY] ["x", "y"]).toOption.map
      (fun r => r.2.length) = some 1 := by
  exact ⟨by decide, by decide⟩

/-- C3 amended: one cache is created per plug_into_socket call, not per
run, and that per-call cache is shared across all candidate-pair queries
of that call: the number of oracle invocations of a call equals the
number of distinct candidate type pairs of that plug.  Caches are not
shared across plugs: in the concrete run below both plugs query the same
pair (1, 0), yet each call records its own one-entry cache and its own
oracle invocation, two invocations in total for one distinct pair. -/
theorem C3_per_plug_cache :
    (∀ (sub : Ty → Ty → Bool) (plug sp : PkgData),
       (computeMatches sub plug sp).2.2 = newDistinct [] (candPairs plug sp)) ∧
    (runPlugs subAll spAB [plugX, plugY] ["x", "y"]).toOption.map
      (fun r => r.2) = some [([((1, 0), true)], 1), ([((1, 0), true)], 1)] := by
  exact ⟨computeMatches_calls, by decide⟩

/-- C5 counterexample: the claim states that when the socket package has
no imports, every plug set fails with the no-matching-imports error.  A
plug set containing a local path without a file stem fails earlier, in
the naming step, with the invalid-plug-name error instead. -/
theorem C5_counterexample :
    (exec subAll encOk txtOk false false true ⟨[], [("e", 0)]⟩
      [.localPath none ⟨[], []⟩] []).1 = .error .invalidPlugName ∧
    Err.invalidPlugName ≠ Err.noMatchingImports := by
  exact ⟨by decide, by decide⟩

/-- C9: output bytes are produced if and only if the whole run succeeds;
a failure at any step (naming, registration, matching, wiring, the
completeness check, export finalization, the terminal guard, encoding,
or text conversion) aborts the run before anything is written, so a
failed run produces no output effect. -/
theorem C9_no_output_on_failure (sub : Ty → Ty → Bool)
    (encodeG : Graph → Option (List Nat)) (toText : List Nat → Option (List Nat))
    (isTerm wat hasOut : Bool) (sp : PkgData) (plugs : List PackageRef)
    (order : List String) :
    (exec sub encodeG toText isTerm wat hasOut sp plugs order).2 ≠ [] ↔
      ∃ gf, (exec sub encodeG toText isTerm wat hasOut sp plugs order).1 = .ok gf := by
  unfold exec
  cases hru : runPlugs sub sp plugs order with
  | error e => simp
  | ok gl => exact finishAfterPlugs_effects

/-- C2: for every plug processed successfully by plug_into_socket, if the
matched-name set is non-empty the plug package is instantiated exactly
once (exactly one instance node refers to the fresh package id) and every
matched name is wired as an argument of the socket instance pointing at
that single new instance; if the matched-name set is empty the plug is
registered but the instance list is unchanged, so no instance node for
it is ever created. -/
theorem C2_lazy_single_instantiation (sub : Ty → Ty → Bool) (name : String)
    (p : PkgData) (socket sInst : Nat) (g g2 : Graph) (st : Cache × Nat)
    (si : InstanceNode)
    (hwf : WfGraph g)
    (hsock : socket < g.packages.length)
    (hsi : g.instances.get? sInst = some si)
    (hok : plug_into_socket sub name p socket sInst g = .ok (g2, st)) :
    (matchedNames sub p (pkgOfId g socket) = [] →
       g2 = ⟨g.packages ++ [(name, p)], g.instances, g.exports⟩) ∧
    (matchedNames sub p (pkgOfId g socket) ≠ [] →
       (g2.instances.map (fun x => x.pkg)).count g.packages.length = 1 ∧
       ∀ n ∈ matchedNames sub p (pkgOfId g socket),
         argLookup g2 sInst n = some (g.instances.length, n)) := by
  have hpe : pkgOfId ⟨g.packages ++ [(name, p)], g.instances, g.exports⟩ socket =
      pkgOfId g socket := pkgOfId_append _ _ _ hsock
  constructor
  · intro hm
    have hempty := plug_into_socket_empty sub name p socket sInst g
      (by rw [hpe]; exact hm)
    rw [hok] at hempty
    exact (Prod.ext_iff.mp (Except.ok.inj hempty)).1
  · intro hne
    cases hmn : matchedNames sub p (pkgOfId g socket) with
    | nil => exact absurd hmn hne
    | cons m ms =>
      obtain ⟨hpk, hex, hgs, hother, hmap, hnone⟩ :=
        plug_into_socket_char (by rw [hpe]; exact hmn) hsi hok
      constructor
      · rw [hmap, List.count_append]
        have hz : (g.instances.map (fun x => x.pkg)).count g.packages.length = 0 := by
          rw [List.count_eq_zero]
          intro hin
          obtain ⟨x, hx, hpkg⟩ := List.mem_map.mp hin
          exact absurd (hpkg ▸ hwf x hx) (Nat.lt_irrefl _)
        rw [hz]
        simp [List.count_cons]
      · intro n hn
        have hn2 : n ∈ m :: ms := hmn ▸ hn
        unfold argLookup argsOf
        rw [hgs]
        show lookupA (si.args ++ (m :: ms).map
          (fun n2 => (n2, (g.instances.length, n2)))) n = some (g.instances.length, n)
        rw [lookupA_append_right _ (hnone n hn2), lookupA_map_self]
        simp [hn2]

/-- C2 witness: the theorem applied to the concrete one-plug run in which
the plug exporting name a is plugged into a socket importing a and b. -/
theorem C2_witness :
    (g2X.instances.map (fun x => x.pkg)).count 1 = 1 ∧
    argLookup g2X 0 "a" = some (1, "a") := by
  have h := C2_lazy_single_instantiation subAll "plug:x" pX 0 0 gSock g2X stX ⟨0, []⟩
    (by intro x hx; fin_cases hx; decide) (by decide) rfl (by decide)
  have h2 := h.2 (by decide)
  exact ⟨h2.1, h2.2 "a" (by decide)⟩

/-- C4: for every successful composition the top-level exports of the
final graph are exactly the socket package export names, in the socket
package export order, each aliased from the socket instance (node 0)
under the same name, and nothing else is exported. -/
theorem C4_export_fidelity (sub : Ty → Ty → Bool)
    (encodeG : Graph → Option (List Nat)) (toText : List Nat → Option (List Nat))
    (isTerm wat hasOut : Bool) (sp : PkgData) (plugs : List PackageRef)
    (order : List String) (gf : Graph)
    (hok : (exec sub encodeG toText isTerm wat hasOut sp plugs order).1 = .ok gf) :
    gf.exports = sp.exports.map (fun e => (e.1, (0, e.1))) ∧
    gf.exports.map Prod.fst = sp.exports.map Prod.fst := by
  unfold exec at hok
  cases hru : runPlugs sub sp plugs order with
  | error e => rw [hru] at hok; simp at hok
  | ok gl =>
    obtain ⟨gg, ll⟩ := gl
    rw [hru] at hok
    simp only at hok
    obtain ⟨hex0, hpk0⟩ := runPlugs_inv hru
    have hsp : pkgOfId gg 0 = sp := by
      unfold pkgOfId
      rw [hpk0]
      rfl
    have hel := finishAfterPlugs_ok hok
    obtain ⟨hexp, _, _⟩ := exportLoop_ok hel
    have h1 : gf.exports = sp.exports.map (fun e => (e.1, (0, e.1))) := by
      rw [hexp, hex0, hsp]
      simp [List.map_map]
    refine ⟨h1, ?_⟩
    rw [h1]
    simp [List.map_map]

/-- C4 witness: the theorem applied to the concrete successful two-plug
composition; the composed exports are exactly the socket export e. -/
theorem C4_witness :
    gFull.exports = spAB.exports.map (fun e => (e.1, (0, e.1))) ∧
    gFull.exports.map Prod.fst = spAB.exports.map Prod.fst :=
  C4_export_fidelity subAll encOk txtOk false false true spAB [plugX, plugY]
    ["x", "y"] gFull (by decide)

/-- C5 amended: after a resolution phase that completes, the run fails
with the no-matching-imports error exactly when the socket instance has
zero instantiation arguments; and when the socket package has no imports
at all, every plug set whose references all have derivable base names
fails with the no-matching-imports error.  (A reference without a base
name aborts earlier with the invalid-plug-name error.) -/
theorem C5_no_matching_imports (sub : Ty → Ty → Bool)
    (encodeG : Graph → Option (List Nat)) (toText : List Nat → Option (List Nat))
    (isTerm wat hasOut : Bool) (sp : PkgData) (plugs : List PackageRef)
    (order : List String) :
    (∀ g logs, runPlugs sub sp plugs order = .ok (g, logs) →
       ((exec sub encodeG toText isTerm wat hasOut sp plugs order).1 =
          .error .noMatchingImports ↔ argsOf g 0 = [])) ∧
    (sp.imports = [] → (∀ r ∈ plugs, (baseName r).isSome) →
       (exec sub encodeG toText isTerm wat hasOut sp plugs order).1 =
         .error .noMatchingImports) := by
  constructor
  · intro g logs hru
    unfold exec
    rw [hru]
    simp only
    cases hargs : argsOf g 0 with
    | nil =>
      unfold finishAfterPlugs
      rw [hargs]
      simp
    | cons x xs =>
      constructor
      · intro hcontra
        exact absurd hcontra (finishAfterPlugs_ne_noMatching hargs)
      · intro hcontra
        cases hcontra
  · intro himp hnames
    obtain ⟨g, logs, hru, hi⟩ := runPlugs_noImports himp hnames
    unfold exec
    rw [hru]
    simp only
    have hargs : argsOf g 0 = [] := by
      unfold argsOf
      rw [hi]
      rfl
    unfold finishAfterPlugs
    rw [hargs]

/-- C5 witness: a socket without imports and one well-named plug; the
run fails with the no-matching-imports error as amended. -/
theorem C5_witness :
    (exec subAll encOk txtOk false false true ⟨[], [("e", 0)]⟩ [plugX] ["x"]).1 =
      .error .noMatchingImports :=
  (C5_no_matching_imports subAll encOk txtOk false false true ⟨[], [("e", 0)]⟩
    [plugX] ["x"]).2 rfl (by decide)

/-- C6: when two distinctly named plugs both have a compatible export for
the same socket import name n, the plug processed first wins the wiring
(the socket argument n points at the first plug instance) and processing
the second plug fails with the already-set error, which the caller
propagates, aborting the run; the conflict is never silently resolved. -/
theorem C6_collision_first_wins (sub : Ty → Ty → Bool) (name1 name2 : String)
    (p1 p2 : PkgData) (socket sInst : Nat) (g g1 : Graph) (st1 : Cache × Nat)
    (si : InstanceNode) (n : String)
    (hname : name1 ≠ name2)
    (hsock : socket < g.packages.length)
    (hsi : g.instances.get? sInst = some si)
    (hpsi : si.pkg = socket)
    (h1 : plug_into_socket sub name1 p1 socket sInst g = .ok (g1, st1))
    (hn1 : n ∈ matchedNames sub p1 (pkgOfId g socket))
    (hn2 : n ∈ matchedNames sub p2 (pkgOfId g socket)) :
    argLookup g1 sInst n = some (g.instances.length, n) ∧
    plug_into_socket sub name2 p2 socket sInst g1 = .error .alreadySet := by
  have hpe1 : pkgOfId ⟨g.packages ++ [(name1, p1)], g.instances, g.exports⟩ socket =
      pkgOfId g socket := pkgOfId_append _ _ _ hsock
  cases hmn : matchedNames sub p1 (pkgOfId g socket) with
  | nil => exact absurd (hmn ▸ hn1) (List.not_mem_nil n)
  | cons m ms =>
    obtain ⟨hpk, hex, hgs, hother, hmap, hnone⟩ :=
      plug_into_socket_char (by rw [hpe1]; exact hmn) hsi h1
    have hn1b : n ∈ m :: ms := hmn ▸ hn1
    have harg1 : argLookup g1 sInst n = some (g.instances.length, n) := by
      unfold argLookup argsOf
      rw [hgs]
      show lookupA (si.args ++ (m :: ms).map
        (fun n2 => (n2, (g.instances.length, n2)))) n = some (g.instances.length, n)
      rw [lookupA_append_right _ (hnone n hn1b), lookupA_map_self]
      simp [hn1b]
    refine ⟨harg1, ?_⟩
    have hsock1 : socket < g1.packages.length := by
      rw [hpk, List.length_append]
      exact Nat.lt_of_lt_of_le hsock (Nat.le_add_right _ _)
    have hpe2 : pkgOfId ⟨g1.packages ++ [(name2, p2)], g1.instances, g1.exports⟩ socket =
        pkgOfId g socket := by
      have e1 : pkgOfId ⟨g1.packages ++ [(name2, p2)], g1.instances, g1.exports⟩ socket =
          pkgOfId g1 socket := pkgOfId_append _ _ _ hsock1
      have e2 : pkgOfId g1 socket = pkgOfId g socket := by
        unfold pkgOfId
        rw [hpk, get?_append_left _ hsock]
      exact e1.trans e2
    obtain ⟨pr, hpr⟩ := get?_of_lt hsock
    rw [plug_into_socket_eq, hpe2]
    have hconfl : wireLoop sInst g1.packages.length
        (matchedNames sub p2 (pkgOfId g socket))
        ⟨g1.packages ++ [(name2, p2)], g1.instances, g1.exports⟩ none =
        .error .alreadySet := by
      apply wireLoop_conflict none p2 (pkgOfId g socket)
        ⟨si.pkg, si.args ++ (m :: ms).map
          (fun n2 => (n2, (g.instances.length, n2)))⟩
      · intro j hj; cases hj
      · show ((g1.packages ++ [(name2, p2)]).get? g1.packages.length).map Prod.snd =
          some p2
        rw [get?_append_length]
        rfl
      · intro mm hmm
        obtain ⟨pty, sty, hmem, _, _⟩ := mem_matchedNames.mp hmm
        exact lookupA_isSome_of_mem hmem
      · exact hgs
      · show ((g1.packages ++ [(name2, p2)]).get? si.pkg).map Prod.snd =
          some (pkgOfId g socket)
        rw [hpsi, get?_append_left _ hsock1, hpk, get?_append_left _ hsock, hpr]
        unfold pkgOfId
        rw [hpr]
        rfl
      · intro mm hmm
        obtain ⟨pty, sty, _, hl, _⟩ := mem_matchedNames.mp hmm
        rw [hl]
        rfl
      · refine ⟨n, hn2, ?_⟩
        show (lookupA (si.args ++ (m :: ms).map
          (fun n2 => (n2, (g.instances.length, n2)))) n).isSome
        rw [lookupA_append_right _ (hnone n hn1b), lookupA_map_self]
        simp [hn1b]
    rw [hconfl]

/-- C6 witness: the theorem applied to the concrete conflict in which the
plugs with stems x and z both export a compatible name a. -/
theorem C6_witness :
    argLookup g2X 0 "a" = some (1, "a") ∧
    plug_into_socket subAll "plug:z" ⟨[], [("a", 2)]⟩ 0 0 g2X =
      .error .alreadySet :=
  C6_collision_first_wins subAll "plug:x" "plug:z" pX ⟨[], [("a", 2)]⟩ 0 0 gSock
    g2X stX ⟨0, []⟩ "a" (by decide) (by decide) rfl rfl (by decide) (by decide)
    (by decide)

/-- C7: an export is a wiring candidate only under exact string equality
of names: every matched name is simultaneously an export name of the plug
and an import name of the socket, and every argument edge a successful
plug_into_socket call adds binds a socket import name n to an alias of
the plug export with the very same name n; no cross-name edge exists. -/
theorem C7_exact_name_matching (sub : Ty → Ty → Bool) (name : String)
    (p : PkgData) (socket sInst : Nat) (g g2 : Graph) (st : Cache × Nat)
    (si : InstanceNode)
    (hsock : socket < g.packages.length)
    (hsi : g.instances.get? sInst = some si)
    (hok : plug_into_socket sub name p socket sInst g = .ok (g2, st)) :
    (∀ n ∈ matchedNames sub p (pkgOfId g socket),
       (lookupA p.exports n).isSome ∧ (lookupA (pkgOfId g socket).imports n).isSome) ∧
    (∀ n v, argLookup g2 sInst n = some v →
       argLookup g sInst n = some v ∨
       (n ∈ matchedNames sub p (pkgOfId g socket) ∧ v = (g.instances.length, n))) := by
  have hpe : pkgOfId ⟨g.packages ++ [(name, p)], g.instances, g.exports⟩ socket =
      pkgOfId g socket := pkgOfId_append _ _ _ hsock
  constructor
  · intro n hn
    obtain ⟨pty, sty, hmem, hl, _⟩ := mem_matchedNames.mp hn
    refine ⟨lookupA_isSome_of_mem hmem, ?_⟩
    rw [hl]
    rfl
  · cases hmn : matchedNames sub p (pkgOfId g socket) with
    | nil =>
      have hempty := plug_into_socket_empty sub name p socket sInst g
        (by rw [hpe]; exact hmn)
      rw [hok] at hempty
      have hg2 : g2 = ⟨g.packages ++ [(name, p)], g.instances, g.exports⟩ :=
        (Prod.ext_iff.mp (Except.ok.inj hempty)).1
      intro n v hv
      left
      unfold argLookup argsOf at hv ⊢
      rw [hg2] at hv
      exact hv
    | cons m ms =>
      obtain ⟨hpk, hex, hgs, hother, hmap, hnone⟩ :=
        plug_into_socket_char (by rw [hpe]; exact hmn) hsi hok
      intro n v hv
      unfold argLookup argsOf at hv
      rw [hgs] at hv
      have hv2 : lookupA (si.args ++ (m :: ms).map
          (fun n2 => (n2, (g.instances.length, n2)))) n = some v := hv
      cases hsa : lookupA si.args n with
      | some w =>
        left
        have := lookupA_append_left ((m :: ms).map
          (fun n2 => (n2, (g.instances.length, n2)))) hsa
        rw [this] at hv2
        unfold argLookup argsOf
        rw [hsi]
        show lookupA si.args n = some v
        rw [hsa, hv2]
      | none =>
        right
        rw [lookupA_append_right _ hsa, lookupA_map_self] at hv2
        by_cases hmem : n ∈ m :: ms
        · rw [if_pos hmem] at hv2
          exact ⟨hmem, (Option.some.inj hv2).symm⟩
        · rw [if_neg hmem] at hv2
          cases hv2

/-- C7 witness: the theorem applied to the concrete one-plug run; the
matched name a is an export of the plug and an import of the socket, and
the only argument edge binds a to the alias of export a. -/
theorem C7_witness :
    ((lookupA pX.exports "a").isSome ∧
      (lookupA (pkgOfId gSock 0).imports "a").isSome) ∧
    (argLookup gSock 0 "a" = some (1, "a") ∨
      ("a" ∈ matchedNames subAll pX (pkgOfId gSock 0) ∧
        ((1 : Nat), "a") = (gSock.instances.length, "a"))) := by
  have h := C7_exact_name_matching subAll "plug:x" pX 0 0 gSock g2X stX ⟨0, []⟩
    (by decide) rfl (by decide)
  exact ⟨h.1 "a" (by decide), h.2 "a" (1, "a") (by decide)⟩

/-- C8: the final registered name of a plug is computed from its group
key and in-group index exactly as the claim describes: a local-path plug
is the marker plug: followed by its file stem, a registry plug keeps its
unprefixed name, a member of a group with more than one member gets its
zero-based in-group index appended, and a singleton group carries no
suffix.  Concretely, two local plugs with stem foo register as
plug:foo0 and plug:foo1 after the socket. -/
theorem C8_plug_naming :
    (∀ (r : PackageRef) (k : String) (len i : Nat), baseName r = some k →
       claimFinalName r len i = some (finalPlugName k r len i)) ∧
    (runPlugs subAll ⟨[("a", 0)], [("e", 0)]⟩
        [.localPath (some "foo") ⟨[], []⟩, .localPath (some "foo") ⟨[], []⟩]
        ["foo"]).toOption.map (fun r => r.1.packages.map Prod.fst) =
      some ["socket", "plug:foo0", "plug:foo1"] := by
  constructor
  · intro r k len i h
    cases r with
    | localPath stem pkg =>
      cases stem with
      | none => cases h
      | some s =>
        obtain rfl := Option.some.inj h
        rfl
    | registryPackage nm pkg =>
      obtain rfl := Option.some.inj h
      rfl
  · decide

/-- C8 witness: the name computation applied to a local plug with stem
foo in a group of two at index one. -/
theorem C8_witness :
    claimFinalName (.localPath (some "foo") ⟨[], []⟩) 2 1 =
      some (finalPlugName "foo" (.localPath (some "foo") ⟨[], []⟩) 2 1) :=
  C8_plug_naming.1 (.localPath (some "foo") ⟨[], []⟩) "foo" 2 1 rfl

/-- C10: a plug export whose name matches a socket import but whose type
fails the subtype check is silently omitted from the matched-name set,
raising no error; and a plug all of whose name-matching exports are
type-incompatible behaves exactly like a plug with no name overlap: the
call succeeds, the plug is registered, and the graph instances and
exports are untouched, so it is never instantiated and contributes no
wiring and no failure. -/
theorem C10_incompatible_skipped (sub : Ty → Ty → Bool) (name : String)
    (p sp : PkgData) (socket sInst : Nat) (g : Graph)
    (hsock : socket < g.packages.length)
    (hsp : pkgOfId g socket = sp)
    (hnodup : (p.exports.map Prod.fst).Nodup) :
    (∀ n pty sty, (n, pty) ∈ p.exports → lookupA sp.imports n = some sty →
       sub pty sty = false → n ∉ matchedNames sub p sp) ∧
    ((∀ n pty sty, (n, pty) ∈ p.exports → lookupA sp.imports n = some sty →
        sub pty sty = false) →
      ∃ st, plug_into_socket sub name p socket sInst g =
        .ok (⟨g.packages ++ [(name, p)], g.instances, g.exports⟩, st)) := by
  constructor
  · intro n pty sty hmem hl hf hin
    obtain ⟨pty2, sty2, hmem2, hl2, htrue⟩ := mem_matchedNames.mp hin
    have hp2 : pty2 = pty := nodup_keys_mem_unique hnodup hmem2 hmem
    subst hp2
    rw [hl] at hl2
    obtain rfl := Option.some.inj hl2
    rw [hf] at htrue
    cases htrue
  · intro hall
    have hm : matchedNames sub p sp = [] := by
      cases he : matchedNames sub p sp with
      | nil => rfl
      | cons a t =>
        have hin : a ∈ matchedNames sub p sp := by
          rw [he]; exact List.mem_cons_self _ _
        obtain ⟨pty, sty, hmem, hl, htrue⟩ := mem_matchedNames.mp hin
        rw [hall a pty sty hmem hl] at htrue
        cases htrue
    have hpe : pkgOfId ⟨g.packages ++ [(name, p)], g.instances, g.exports⟩ socket =
        sp := (pkgOfId_append _ _ _ hsock).trans hsp
    exact ⟨_, plug_into_socket_empty sub name p socket sInst g (by rw [hpe]; exact hm)⟩

/-- C10 witness: a plug exporting x at type 1 against a socket importing
x at type 0 under the equality oracle: the name matches, the type check
fails, and the call succeeds with the plug registered, never
instantiated. -/
theorem C10_witness :
    ∃ st, plug_into_socket subEq "plug:w" ⟨[], [("x", 1)]⟩ 0 0 gSockX =
      .ok (⟨gSockX.packages ++ [("plug:w", ⟨[], [("x", 1)]⟩)],
        gSockX.instances, gSockX.exports⟩, st) := by
  refine (C10_incompatible_skipped subEq "plug:w" ⟨[], [("x", 1)]⟩
    ⟨[("x", 0)], [("e", 0)]⟩ 0 0 gSockX (by decide) (by decide) (by decide)).2 ?_
  intro n pty sty hmem hl
  obtain ⟨hn, hp⟩ := Prod.ext_iff.mp (List.mem_singleton.mp hmem)
  simp only at hn hp
  subst hn
  subst hp
  simp only [lookupA] at hl
  simp at hl
  subst hl
  rfl
